import Mathlib

/-! Verification of the chunking + vector-index + retrieval pipeline of
`MarkdownVectorDB` (src/genai.py).

The shallow embedding works at the level the Python code computes on:

* `_chunk_text` iterates over the word lists of the sentences of the
  document (paragraph splitting via `re.split` and sentence splitting via
  `nltk.sent_tokenize` are external libraries; the loop body only ever
  sees `words = sent.split()`).  The embedding therefore takes the ordered
  list of sentence word lists as input.  The Python code joins a chunk
  into a string at the moment it is appended; the embedding keeps the
  word lists and applies the same join (`" ".join` = `String.intercalate " "`)
  to every element at the end, which is the same elementwise operation.
* embedding vectors are modelled as `List ℚ` (the service returns a
  fixed-dimension numeric vector; exactness of the claims is about the
  algorithm, not floating-point rounding).
* `faiss.IndexFlatL2.search` is exact brute-force squared-L2 search; for
  `k` larger than the number of stored vectors it fills the missing
  result slots with label `-1` and a sentinel distance.
-/

namespace MarkdownVectorDB

/-- Python slice `l[-n:]` for `n > 0` (and `l.drop l.length = []` for `n = 0`):
the last `min n (l.length)` elements of `l`. -/
def takeLast {α : Type} (n : Nat) (l : List α) : List α :=
  l.drop (l.length - n)

/-- The loop state of `_chunk_text`: the chunks emitted so far (as word
lists, joined at the end), the accumulator `current_chunk`, and the running
counter `current_length`. -/
structure ChunkState where
  chunks : List (List String)
  current : List String
  currentLength : Nat
deriving DecidableEq

/-- One iteration of the sentence loop of `_chunk_text` (src/genai.py lines
40-47): close the accumulator when adding the sentence would exceed
`chunk_size`, seeding the new accumulator with `current_chunk[-overlap:]`
(empty when `overlap == 0`); otherwise extend the accumulator. -/
def chunkStep (chunkSize overlap : Nat) (st : ChunkState) (words : List String) : ChunkState :=
  if st.currentLength + words.length > chunkSize then
    let overlapWords := if overlap > 0 then takeLast overlap st.current else []
    let newCurrent := overlapWords ++ words
    { chunks := st.chunks ++ [st.current]
      current := newCurrent
      currentLength := newCurrent.length }
  else
    { chunks := st.chunks
      current := st.current ++ words
      currentLength := st.currentLength + words.length }

/-- The fold of `chunkStep` over all sentence word lists, starting from the
empty state (`chunks, current_chunk = [], []` and `current_length = 0`). -/
def chunkFold (chunkSize overlap : Nat) (sents : List (List String)) : ChunkState :=
  sents.foldl (chunkStep chunkSize overlap) ⟨[], [], 0⟩

/-- The chunk word lists produced by `_chunk_text`: the emitted chunks, plus
the final accumulator when it is non-empty (`if current_chunk:`). -/
def chunkWordLists (chunkSize overlap : Nat) (sents : List (List String)) : List (List String) :=
  let st := chunkFold chunkSize overlap sents
  if st.current.isEmpty then st.chunks else st.chunks ++ [st.current]

/-- The chunk strings produced by `_chunk_text`: each chunk word list joined
with single spaces (`" ".join(...)`). -/
def chunkText (chunkSize overlap : Nat) (sents : List (List String)) : List String :=
  (chunkWordLists chunkSize overlap sents).map (fun ws => String.intercalate " " ws)

/-- The seeding rule exactly as the specification words it: the empty list
when `overlap == 0` or when the closed chunk has fewer than `overlap` words,
otherwise the last `overlap` words of the closed chunk.  Stated only to be
compared with the behaviour of `chunkStep`. -/
def overlapSeedSpec (overlap : Nat) (closed : List String) : List String :=
  if overlap = 0 ∨ closed.length < overlap then [] else takeLast overlap closed

/-- Squared Euclidean distance between two vectors, the metric of
`faiss.IndexFlatL2` (sum of squared coordinate differences, no square
root). -/
def sqDist (u v : List ℚ) : ℚ :=
  (List.zipWith (fun a b => (a - b) * (a - b)) u v).sum

/-- Comparison key of a search result candidate: a candidate precedes
another when its distance is smaller, or the distances are equal and its
insertion index is not larger. -/
def keyLe (p q : ℚ × Nat) : Prop :=
  p.1 < q.1 ∨ (p.1 = q.1 ∧ p.2 ≤ q.2)

instance : DecidableRel keyLe :=
  fun p q => inferInstanceAs (Decidable (p.1 < q.1 ∨ (p.1 = q.1 ∧ p.2 ≤ q.2)))

instance : IsTotal (ℚ × Nat) keyLe :=
  ⟨fun p q => by
    rcases lt_trichotomy p.1 q.1 with h | h | h
    · exact Or.inl (Or.inl h)
    · rcases Nat.le_total p.2 q.2 with h2 | h2
      · exact Or.inl (Or.inr ⟨h, h2⟩)
      · exact Or.inr (Or.inr ⟨h.symm, h2⟩)
    · exact Or.inr (Or.inl h)⟩

instance : IsTrans (ℚ × Nat) keyLe :=
  ⟨fun p q r hpq hqr => by
    rcases hpq with h1 | ⟨e1, i1⟩ <;> rcases hqr with h2 | ⟨e2, i2⟩
    · exact Or.inl (lt_trans h1 h2)
    · exact Or.inl (e2 ▸ h1)
    · exact Or.inl (by rw [e1]; exact h2)
    · exact Or.inr ⟨e1.trans e2, le_trans i1 i2⟩⟩

/-- All (distance, insertion index) candidate pairs for a query: the exact
squared distance of the query to every stored vector, in insertion order. -/
def searchPairs (stored : List (List ℚ)) (q : List ℚ) : List (ℚ × Nat) :=
  (List.range stored.length).map (fun i => (sqDist q (stored.getD i []), i))

/-- The filled part of a `faiss.IndexFlatL2.search` result row: the
candidates ordered by ascending distance (ties by lower insertion index),
truncated to `k`. -/
def searchTop (stored : List (List ℚ)) (q : List ℚ) (k : Nat) : List (ℚ × Nat) :=
  (List.insertionSort keyLe (searchPairs stored q)).take k

/-- Sentinel distance reported by faiss for unfilled result slots when `k`
exceeds the number of stored vectors. -/
def padDist : ℚ := (2 : ℚ) ^ 128

/-- Model of `faiss.IndexFlatL2.search` for one query row: exactly `k`
(distance, label) pairs; the first `min k n` are the exact brute-force
nearest neighbours in ascending distance order, the remaining slots carry
label `-1` and the sentinel distance. -/
def faissSearch (stored : List (List ℚ)) (q : List ℚ) (k : Nat) : List (ℚ × Int) :=
  (searchTop stored q k).map (fun p => (p.1, (p.2 : Int))) ++
    List.replicate (k - stored.length) (padDist, (-1 : Int))

/-- Python list indexing `l[i]`: a negative index counts from the end of the
list; an index out of range on either side raises `IndexError` (modelled as
`none`). -/
def pyGet {α : Type} (l : List α) (i : Int) : Option α :=
  let j : Int := if i < 0 then (l.length : Int) + i else i
  if 0 ≤ j then l.get? j.toNat else none

/-- The list comprehension `[self.chunks[idx] for idx in I[0]]` of `query`:
looks every label up with Python indexing, failing (raising) as soon as one
lookup is out of range. -/
def contextChunks (chunks : List String) : List Int → Option (List String)
  | [] => some []
  | i :: rest =>
    match pyGet chunks i, contextChunks chunks rest with
    | some c, some cs => some (c :: cs)
    | _, _ => none

/-- A built retrieval session: the chunk store and the stored embedding
vectors (row `i` of the index is the embedding of chunk `i`). -/
structure Session where
  chunks : List String
  index : List (List ℚ)
deriving DecidableEq

/-- The build-time failure of `_create_index`: with no chunks the embedding
matrix `np.array([])` has shape `(0,)`, so reading `embeddings.shape[1]`
raises and `__init__` aborts. -/
inductive IndexBuildError where
  | emptyEmbeddingMatrix
deriving DecidableEq

/-- Models `_create_index` (src/genai.py lines 54-72): one embedding call
per chunk in order; with an empty chunk list the dimension read fails,
otherwise the index stores the vectors in insertion order. -/
def createIndex (embed : String → List ℚ) (chunks : List String) :
    Except IndexBuildError (List (List ℚ)) :=
  let embeddings := chunks.map embed
  if embeddings.isEmpty then Except.error IndexBuildError.emptyEmbeddingMatrix
  else Except.ok embeddings

/-- Models `__init__` (src/genai.py lines 10-20): chunk the document, then
build the index; a failure aborts construction, so the caller receives an
error value and no `Session` exists. -/
def buildSession (embed : String → List ℚ) (chunkSize overlap : Nat)
    (sents : List (List String)) : Except IndexBuildError Session :=
  let chunks := chunkText chunkSize overlap sents
  match createIndex embed chunks with
  | Except.error e => Except.error e
  | Except.ok vecs => Except.ok ⟨chunks, vecs⟩

/-- Models the prompt assembly of `query` (the f-string around the
retrieved context and the question). -/
def buildPrompt (context question : String) : String :=
  "\n        You are an assistant that answers questions about a real estate project.\n        Rely **only** on the information provided in the brochure context below.\n        If the answer is not explicitly stated in the context, reply: \"The brochure does not provide this information.\"\n\n        Brochure Context:\n        "
    ++ context
    ++ "\n\n        Question:\n        " ++ question ++ "\n\n        Answer:\n        "

/-- Models `query` (src/genai.py lines 74-108) with the session state
threaded explicitly: embed the question (external call `embedQ`), search the
index, assemble the context from the returned labels, build the prompt and
delegate to the generation service (external call `generate`).  The first
component is the answer (`none` when the context assembly raises), the
second the session state after the call. -/
def queryRun (embedQ : String → List ℚ) (generate : String → String)
    (s : Session) (question : String) (topK : Nat) : Option String × Session :=
  let qvec := embedQ question
  let labels := (faissSearch s.index qvec topK).map Prod.snd
  match contextChunks s.chunks labels with
  | none => (none, s)
  | some lines =>
    (some (generate (buildPrompt (String.intercalate "\n" lines) question)), s)

/-! ## Helper lemmas about the chunk builder -/

theorem takeLast_zero {α : Type} (l : List α) : takeLast 0 l = [] := by
  simp [takeLast]

theorem overlapWords_eq (ov : Nat) (l : List String) :
    (if ov > 0 then takeLast ov l else []) = takeLast ov l := by
  by_cases h : ov > 0
  · rw [if_pos h]
  · rw [if_neg h]
    have h0 : ov = 0 := by omega
    rw [h0, takeLast_zero]

/-- The close branch of the sentence loop, in closed form: the accumulator
is emitted, and the new accumulator is the last `min overlap length` words
of the emitted chunk followed by the sentence words. -/
theorem chunkStep_close (cs ov : Nat) (st : ChunkState) (words : List String)
    (h : cs < st.currentLength + words.length) :
    chunkStep cs ov st words =
      { chunks := st.chunks ++ [st.current]
        current := takeLast ov st.current ++ words
        currentLength := (takeLast ov st.current ++ words).length } := by
  simp only [chunkStep, overlapWords_eq]
  rw [if_pos h]

theorem chunkFoldl_inv (cs ov : Nat) (P : ChunkState → Prop)
    (hstep : ∀ st w, P st → P (chunkStep cs ov st w)) :
    ∀ (sents : List (List String)) (init : ChunkState), P init →
      P (sents.foldl (chunkStep cs ov) init)
  | [], _, h0 => h0
  | w :: ws, init, h0 => chunkFoldl_inv cs ov P hstep ws _ (hstep init w h0)

theorem chunkStep_chunks_extend (cs ov : Nat) (st : ChunkState) (w : List String) :
    ∃ t, (chunkStep cs ov st w).chunks = st.chunks ++ t := by
  simp only [chunkStep]
  by_cases h : st.currentLength + w.length > cs
  · rw [if_pos h]; exact ⟨[st.current], rfl⟩
  · rw [if_neg h]; exact ⟨[], (List.append_nil _).symm⟩

theorem chunkFoldl_chunks_extend (cs ov : Nat) :
    ∀ (sents : List (List String)) (init : ChunkState),
      ∃ t, (sents.foldl (chunkStep cs ov) init).chunks = init.chunks ++ t
  | [], _ => ⟨[], (List.append_nil _).symm⟩
  | w :: ws, init => by
    obtain ⟨t1, h1⟩ := chunkStep_chunks_extend cs ov init w
    obtain ⟨t2, h2⟩ := chunkFoldl_chunks_extend cs ov ws (chunkStep cs ov init w)
    exact ⟨t1 ++ t2, by rw [List.foldl_cons, h2, h1, List.append_assoc]⟩

theorem chunkStep_chain (cs ov : Nat) (st : ChunkState) (w : List String)
    (h : List.Chain' (fun a b => takeLast ov a <+: b) (st.chunks ++ [st.current])) :
    List.Chain' (fun a b => takeLast ov a <+: b)
      ((chunkStep cs ov st w).chunks ++ [(chunkStep cs ov st w).current]) := by
  by_cases hc : st.currentLength + w.length > cs
  · rw [chunkStep_close cs ov st w hc]
    refine List.Chain'.append h (List.chain'_singleton _) ?_
    intro x hx y hy
    rw [List.getLast?_concat] at hx
    simp only [List.head?_cons, Option.mem_def, Option.some.injEq] at hx hy
    rw [← hx, ← hy]
    exact ⟨w, rfl⟩
  · simp only [chunkStep]
    rw [if_neg hc]
    obtain ⟨h1, _, h3⟩ := List.chain'_append.mp h
    refine List.chain'_append.mpr ⟨h1, List.chain'_singleton _, ?_⟩
    intro x hx y hy
    simp only [List.head?_cons, Option.mem_def, Option.some.injEq] at hy
    have hr : takeLast ov x <+: st.current := h3 x hx st.current (by simp)
    rw [← hy]
    exact hr.trans ⟨w, rfl⟩

theorem chunkFold_chain (cs ov : Nat) (sents : List (List String)) :
    List.Chain' (fun a b => takeLast ov a <+: b)
      ((chunkFold cs ov sents).chunks ++ [(chunkFold cs ov sents).current]) :=
  chunkFoldl_inv cs ov
    (fun st => List.Chain' (fun a b => takeLast ov a <+: b) (st.chunks ++ [st.current]))
    (fun st w hst => chunkStep_chain cs ov st w hst) sents ⟨[], [], 0⟩
    (by simp)

theorem chunkWordLists_chain (cs ov : Nat) (sents : List (List String)) :
    List.Chain' (fun a b => takeLast ov a <+: b) (chunkWordLists cs ov sents) := by
  simp only [chunkWordLists]
  by_cases h : (chunkFold cs ov sents).current.isEmpty
  · rw [if_pos h]
    exact (List.chain'_append.mp (chunkFold_chain cs ov sents)).1
  · rw [if_neg h]
    exact chunkFold_chain cs ov sents

theorem chunkStep_keep (cs ov : Nat) (st : ChunkState) (w : List String)
    (h : st.chunks ≠ [] ∨ st.current ≠ []) :
    (chunkStep cs ov st w).chunks ≠ [] ∨ (chunkStep cs ov st w).current ≠ [] := by
  by_cases hc : st.currentLength + w.length > cs
  · rw [chunkStep_close cs ov st w hc]
    exact Or.inl (by simp)
  · simp only [chunkStep]
    rw [if_neg hc]
    rcases h with h | h
    · exact Or.inl h
    · exact Or.inr (fun hcon => h (List.append_eq_nil.mp hcon).1)

theorem chunkStep_start (cs ov : Nat) (st : ChunkState) (w : List String) (hw : w ≠ []) :
    (chunkStep cs ov st w).chunks ≠ [] ∨ (chunkStep cs ov st w).current ≠ [] := by
  by_cases hc : st.currentLength + w.length > cs
  · rw [chunkStep_close cs ov st w hc]
    exact Or.inl (by simp)
  · simp only [chunkStep]
    rw [if_neg hc]
    exact Or.inr (fun hcon => hw (List.append_eq_nil.mp hcon).2)

theorem chunkFoldl_nonempty (cs ov : Nat) :
    ∀ (sents : List (List String)) (init : ChunkState),
      ((init.chunks ≠ [] ∨ init.current ≠ []) ∨ ∃ w ∈ sents, w ≠ []) →
      ((sents.foldl (chunkStep cs ov) init).chunks ≠ [] ∨
        (sents.foldl (chunkStep cs ov) init).current ≠ [])
  | [], _, h => by
    rcases h with h | ⟨w, hw, _⟩
    · exact h
    · exact absurd hw (List.not_mem_nil w)
  | w :: ws, init, h => by
    rw [List.foldl_cons]
    rcases h with h | ⟨x, hx, hxne⟩
    · exact chunkFoldl_nonempty cs ov ws _ (Or.inl (chunkStep_keep cs ov init w h))
    · rcases List.mem_cons.mp hx with rfl | hx'
      · exact chunkFoldl_nonempty cs ov ws _ (Or.inl (chunkStep_start cs ov init x hxne))
      · exact chunkFoldl_nonempty cs ov ws _ (Or.inr ⟨x, hx', hxne⟩)

theorem chunkFold_all_empty (cs ov : Nat) :
    ∀ (sents : List (List String)), (∀ w ∈ sents, w = []) →
      chunkFold cs ov sents = ⟨[], [], 0⟩
  | [], _ => rfl
  | w :: ws, h => by
    have hw : w = [] := h w (List.mem_cons_self w ws)
    have hstep : chunkStep cs ov ⟨[], [], 0⟩ [] = ⟨[], [], 0⟩ := by
      simp only [chunkStep]
      rw [if_neg (by simp)]
      simp
    have hrec := chunkFold_all_empty cs ov ws (fun x hx => h x (List.mem_cons_of_mem w hx))
    simp only [chunkFold, List.foldl_cons] at hrec ⊢
    rw [hw, hstep]
    exact hrec

/-! ## Claims about the chunk builder -/

/-- C1 counterexample: with `chunk_size = 3`, `overlap = 2`, accumulator
`["a"]` (one word) and incoming sentence `["b","c","d"]`, the sentence
overflows and the chunk `["a"]` is closed.  It has fewer than `overlap`
words, so the claim prescribes seeding the new accumulator with the empty
list, i.e. an accumulator `["b","c","d"]`; the code seeds it with the whole
closed chunk (`current_chunk[-2:]` of a one-element list is the whole
list), producing `["a","b","c","d"]`. -/
theorem C1_counterexample :
    (chunkStep 3 2 ⟨[], ["a"], 1⟩ ["b", "c", "d"]).current = ["a", "b", "c", "d"] ∧
    overlapSeedSpec 2 ["a"] ++ ["b", "c", "d"] = ["b", "c", "d"] ∧
    (chunkStep 3 2 ⟨[], ["a"], 1⟩ ["b", "c", "d"]).current ≠
      overlapSeedSpec 2 ["a"] ++ ["b", "c", "d"] := by
  decide

/-- C1 amended: when `current_count + sentence_word_count > chunk_size`,
the accumulated words are closed as a chunk and appended, and the new
accumulator is seeded with the last `min overlap length` words of the
just-closed chunk — the whole closed chunk when it has fewer than
`overlap` words, and the empty list exactly when `overlap = 0` (or the
closed chunk is empty) — followed by the sentence words; the running count
is recomputed as the new accumulator length. -/
theorem C1_close_and_seed (cs ov : Nat) (st : ChunkState) (words : List String)
    (h : cs < st.currentLength + words.length) :
    chunkStep cs ov st words =
      { chunks := st.chunks ++ [st.current]
        current := takeLast ov st.current ++ words
        currentLength := (takeLast ov st.current ++ words).length } :=
  chunkStep_close cs ov st words h

/-- C1 witness: the amended close rule evaluated at `chunk_size = 3`,
`overlap = 2`, accumulator `["a"]`, sentence `["b","c","d"]`. -/
theorem C1_close_and_seed_witness :
    3 < (ChunkState.mk [] ["a"] 1).currentLength + (["b", "c", "d"] : List String).length ∧
    chunkStep 3 2 ⟨[], ["a"], 1⟩ ["b", "c", "d"] =
      { chunks := [] ++ [["a"]]
        current := takeLast 2 ["a"] ++ ["b", "c", "d"]
        currentLength := (takeLast 2 ["a"] ++ ["b", "c", "d"]).length } :=
  ⟨by decide, C1_close_and_seed 3 2 ⟨[], ["a"], 1⟩ ["b", "c", "d"] (by decide)⟩

/-- C2 counterexample: with `chunk_size = 3` and `overlap = 2` the document
whose sentences are `["a"]` and `["b","c","d"]` produces the chunks
`["a"]` and `["a","b","c","d"]`; the leading 2 words
`["a","b"]` of the second chunk differ from the trailing 2 words of the first chunk, `["a"]`. -/
theorem C2_counterexample :
    chunkWordLists 3 2 [["a"], ["b", "c", "d"]] = [["a"], ["a", "b", "c", "d"]] ∧
    ((chunkWordLists 3 2 [["a"], ["b", "c", "d"]]).getD 1 []).take 2 ≠
      takeLast 2 ((chunkWordLists 3 2 [["a"], ["b", "c", "d"]]).getD 0 []) := by
  decide

/-- C2 amended: in the chunk word lists produced by the chunk builder,
every chunk after the first starts with the trailing `min overlap length`
words of the previous chunk (the `takeLast overlap` slice of the previous chunk
is a prefix of it); in particular, whenever the previous chunk has at
least `overlap` words, the leading `overlap` words of the chunk equal the
trailing `overlap` words of the previous chunk, exactly as the claim states. -/
theorem C2_overlap_words (cs ov : Nat) (sents : List (List String)) (hov : 0 < ov)
    (i : Nat) (hi : i + 1 < (chunkWordLists cs ov sents).length) :
    takeLast ov ((chunkWordLists cs ov sents).getD i []) <+:
      (chunkWordLists cs ov sents).getD (i + 1) [] ∧
    (ov ≤ ((chunkWordLists cs ov sents).getD i []).length →
      ((chunkWordLists cs ov sents).getD (i + 1) []).take ov =
        takeLast ov ((chunkWordLists cs ov sents).getD i [])) := by
  have hchain := chunkWordLists_chain cs ov sents
  rw [List.chain'_iff_get] at hchain
  have hR := hchain i (by omega)
  have e0 : (chunkWordLists cs ov sents).getD i [] =
      (chunkWordLists cs ov sents).get ⟨i, by omega⟩ := by
    rw [List.getD_eq_getD_get?, List.get?_eq_get (by omega)]
    rfl
  have e1 : (chunkWordLists cs ov sents).getD (i + 1) [] =
      (chunkWordLists cs ov sents).get ⟨i + 1, by omega⟩ := by
    rw [List.getD_eq_getD_get?, List.get?_eq_get (by omega)]
    rfl
  rw [e0, e1]
  refine ⟨hR, fun hle => ?_⟩
  obtain ⟨t, ht⟩ := hR
  have hlen : (takeLast ov ((chunkWordLists cs ov sents).get ⟨i, by omega⟩)).length = ov := by
    simp only [takeLast, List.length_drop]
    omega
  rw [← ht]
  exact List.take_left' hlen

/-- C2 witness: `chunk_size = 3`, `overlap = 2`, sentences `["a","b"]` and
`["c","d"]` give chunks `["a","b"]` and `["a","b","c","d"]`; the second
chunk starts with, and its leading 2 words equal, the first chunk's
trailing 2 words. -/
theorem C2_overlap_words_witness :
    (0 : Nat) < 2 ∧ 0 + 1 < (chunkWordLists 3 2 [["a", "b"], ["c", "d"]]).length ∧
    (takeLast 2 ((chunkWordLists 3 2 [["a", "b"], ["c", "d"]]).getD 0 []) <+:
      (chunkWordLists 3 2 [["a", "b"], ["c", "d"]]).getD (0 + 1) [] ∧
    (2 ≤ ((chunkWordLists 3 2 [["a", "b"], ["c", "d"]]).getD 0 []).length →
      ((chunkWordLists 3 2 [["a", "b"], ["c", "d"]]).getD (0 + 1) []).take 2 =
        takeLast 2 ((chunkWordLists 3 2 [["a", "b"], ["c", "d"]]).getD 0 []))) :=
  ⟨by decide, by decide, C2_overlap_words 3 2 [["a", "b"], ["c", "d"]] (by decide) 0 (by decide)⟩

/-- C6: a sentence is never split across chunks: after the loop body runs,
the whole sentence word list is a contiguous suffix of the accumulator;
the chunk emitted by the body (if any) is exactly the previously
accumulated words, containing no part of the new sentence; and when the
sentence alone has more than `chunk_size` words the resulting accumulator
overflows the target size — the size check happens only before adding a
sentence, never after. -/
theorem C6_sentence_never_split (cs ov : Nat) (st : ChunkState) (words : List String) :
    words <:+ (chunkStep cs ov st words).current ∧
    ((chunkStep cs ov st words).chunks = st.chunks ∨
      (chunkStep cs ov st words).chunks = st.chunks ++ [st.current]) ∧
    (cs < words.length → cs < (chunkStep cs ov st words).current.length) := by
  by_cases h : st.currentLength + words.length > cs
  · rw [chunkStep_close cs ov st words h]
    refine ⟨⟨takeLast ov st.current, rfl⟩, Or.inr rfl, fun _ => ?_⟩
    simp only [List.length_append]
    omega
  · simp only [chunkStep]
    rw [if_neg h]
    refine ⟨⟨st.current, rfl⟩, Or.inl rfl, fun hw => ?_⟩
    exfalso
    omega

/-- C6 witness: `chunk_size = 1`, empty accumulator, a 2-word sentence:
the sentence is placed whole and the accumulator overflows. -/
theorem C6_sentence_never_split_witness :
    (1 < (["a", "b"] : List String).length) ∧
    (["a", "b"] : List String) <:+ (chunkStep 1 0 ⟨[], [], 0⟩ ["a", "b"]).current ∧
    ((chunkStep 1 0 ⟨[], [], 0⟩ ["a", "b"]).chunks = ChunkState.chunks ⟨[], [], 0⟩ ∨
      (chunkStep 1 0 ⟨[], [], 0⟩ ["a", "b"]).chunks =
        ChunkState.chunks ⟨[], [], 0⟩ ++ [ChunkState.current ⟨[], [], 0⟩]) ∧
    (1 < (["a", "b"] : List String).length →
      1 < (chunkStep 1 0 ⟨[], [], 0⟩ ["a", "b"]).current.length) :=
  ⟨by decide, C6_sentence_never_split 1 0 ⟨[], [], 0⟩ ["a", "b"]⟩

/-- C7: the chunk builder yields a non-empty chunk sequence whenever the
sentences of the document carry at least one word, and the empty sequence
when they carry none (the stripped empty or whitespace-only document
tokenizes to no sentences at all, covered by `sents = []`). -/
theorem C7_nonempty_iff_words (cs ov : Nat) (sents : List (List String)) :
    (sents.flatten ≠ [] → chunkText cs ov sents ≠ []) ∧
    (sents.flatten = [] → chunkText cs ov sents = []) := by
  constructor
  · intro hj
    have hex : ∃ w ∈ sents, w ≠ [] := by
      by_contra hall
      push_neg at hall
      exact hj (List.flatten_eq_nil_iff.mpr hall)
    have h := chunkFoldl_nonempty cs ov sents ⟨[], [], 0⟩ (Or.inr hex)
    simp only [chunkText, chunkWordLists]
    intro hcon
    rw [List.map_eq_nil_iff] at hcon
    by_cases he : (chunkFold cs ov sents).current.isEmpty
    · rw [if_pos he] at hcon
      rcases h with h | h
      · exact h hcon
      · exact h (List.isEmpty_iff.mp he)
    · rw [if_neg he] at hcon
      exact absurd (List.append_eq_nil.mp hcon).2 (by simp)
  · intro hj
    have hall : ∀ w ∈ sents, w = [] := List.flatten_eq_nil_iff.mp hj
    have hfold := chunkFold_all_empty cs ov sents hall
    simp only [chunkText, chunkWordLists, hfold]
    rfl

/-- C7 witness: a single one-word sentence yields a non-empty chunk list,
and no sentences (empty or whitespace-only document) yield the empty
chunk list. -/
theorem C7_nonempty_iff_words_witness :
    (([["a"]] : List (List String)).flatten ≠ [] ∧ chunkText 800 100 [["a"]] ≠ []) ∧
    (([] : List (List String)).flatten = [] ∧ chunkText 800 100 [] = []) :=
  ⟨⟨by decide, (C7_nonempty_iff_words 800 100 [["a"]]).1 (by decide)⟩,
    ⟨rfl, (C7_nonempty_iff_words 800 100 []).2 rfl⟩⟩

/-- C9: when a sentence with more than `chunk_size` words arrives while the
accumulator is empty (the running count is 0), the loop body closes the
empty accumulator, appending the empty word list as a chunk, and for a
document starting with such a sentence the first emitted chunk string is
the empty string. -/
theorem C9_empty_string_chunk (cs ov : Nat) (chunks0 : List (List String))
    (words : List String) (rest : List (List String)) (h : cs < words.length) :
    chunkStep cs ov ⟨chunks0, [], 0⟩ words = ⟨chunks0 ++ [[]], words, words.length⟩ ∧
    (chunkText cs ov (words :: rest)).head? = some "" := by
  have hclose : ∀ c0 : List (List String),
      chunkStep cs ov ⟨c0, [], 0⟩ words = ⟨c0 ++ [[]], words, words.length⟩ := by
    intro c0
    rw [chunkStep_close cs ov ⟨c0, [], 0⟩ words (by simpa using h)]
    simp [takeLast]
  refine ⟨hclose chunks0, ?_⟩
  have hfold : chunkFold cs ov (words :: rest) =
      rest.foldl (chunkStep cs ov) ⟨[[]], words, words.length⟩ := by
    simp only [chunkFold, List.foldl_cons]
    rw [hclose []]
    rfl
  obtain ⟨t, ht⟩ := chunkFoldl_chunks_extend cs ov rest ⟨[[]], words, words.length⟩
  simp only [chunkText, chunkWordLists, hfold]
  by_cases hcur : (rest.foldl (chunkStep cs ov) ⟨[[]], words, words.length⟩).current.isEmpty
  · rw [if_pos hcur, ht]
    rfl
  · rw [if_neg hcur, ht]
    rfl

/-- C9 witness: `chunk_size = 1`, `overlap = 1`, first sentence
`["a","b"]`: the empty accumulator is closed into an empty chunk, and the
produced chunk strings start with `""`. -/
theorem C9_empty_string_chunk_witness :
    1 < (["a", "b"] : List String).length ∧
    (chunkStep 1 1 ⟨[], [], 0⟩ ["a", "b"] = ⟨[] ++ [[]], ["a", "b"], 2⟩ ∧
      (chunkText 1 1 [["a", "b"]]).head? = some "") :=
  ⟨by decide, C9_empty_string_chunk 1 1 [] ["a", "b"] [] (by decide)⟩

/-! ## Helper lemmas about the search model -/

theorem searchPairs_length (stored : List (List ℚ)) (q : List ℚ) :
    (searchPairs stored q).length = stored.length := by
  simp [searchPairs]

theorem searchPairs_map_snd (stored : List (List ℚ)) (q : List ℚ) :
    (searchPairs stored q).map Prod.snd = List.range stored.length := by
  simp [searchPairs, List.map_map, Function.comp_def]

theorem searchPairs_mem (stored : List (List ℚ)) (q : List ℚ) (p : ℚ × Nat)
    (hp : p ∈ searchPairs stored q) :
    p.2 < stored.length ∧ p.1 = sqDist q (stored.getD p.2 []) := by
  simp only [searchPairs, List.mem_map, List.mem_range] at hp
  obtain ⟨i, hi, rfl⟩ := hp
  exact ⟨hi, rfl⟩

theorem searchTop_sorted (stored : List (List ℚ)) (q : List ℚ) (k : Nat) :
    (searchTop stored q k).Sorted keyLe :=
  List.Pairwise.sublist (List.take_sublist k _) (List.sorted_insertionSort keyLe _)

theorem searchTop_length (stored : List (List ℚ)) (q : List ℚ) (k : Nat) :
    (searchTop stored q k).length = min k stored.length := by
  simp [searchTop, searchPairs]

theorem searchTop_mem (stored : List (List ℚ)) (q : List ℚ) (k : Nat) (p : ℚ × Nat)
    (hp : p ∈ searchTop stored q k) :
    p.2 < stored.length ∧ p.1 = sqDist q (stored.getD p.2 []) := by
  apply searchPairs_mem
  have h1 : p ∈ List.insertionSort keyLe (searchPairs stored q) :=
    (List.take_sublist k _).subset hp
  exact (List.mem_insertionSort keyLe).mp h1

theorem searchTop_snd_nodup (stored : List (List ℚ)) (q : List ℚ) (k : Nat) :
    ((searchTop stored q k).map Prod.snd).Nodup := by
  have hperm : ((List.insertionSort keyLe (searchPairs stored q)).map Prod.snd).Perm
      ((searchPairs stored q).map Prod.snd) :=
    (List.perm_insertionSort keyLe _).map Prod.snd
  have hnodup : ((List.insertionSort keyLe (searchPairs stored q)).map Prod.snd).Nodup := by
    rw [hperm.nodup_iff, searchPairs_map_snd]
    exact List.nodup_range _
  exact List.Nodup.sublist (List.Sublist.map Prod.snd (List.take_sublist k _)) hnodup

theorem searchTop_minimal (stored : List (List ℚ)) (q : List ℚ) (k : Nat) (j : Nat)
    (hj : j < stored.length) (hnot : j ∉ (searchTop stored q k).map Prod.snd) :
    ∀ p ∈ searchTop stored q k, keyLe p (sqDist q (stored.getD j []), j) := by
  intro p hp
  have hjmem : (sqDist q (stored.getD j []), j) ∈ searchPairs stored q := by
    simp only [searchPairs, List.mem_map, List.mem_range]
    exact ⟨j, hj, rfl⟩
  have hjsorted : (sqDist q (stored.getD j []), j) ∈
      List.insertionSort keyLe (searchPairs stored q) :=
    (List.mem_insertionSort keyLe).mpr hjmem
  have hpw : List.Pairwise keyLe (List.insertionSort keyLe (searchPairs stored q)) :=
    List.sorted_insertionSort keyLe _
  rw [← List.take_append_drop k (List.insertionSort keyLe (searchPairs stored q))] at hpw hjsorted
  rcases List.mem_append.mp hjsorted with hmem | hmem
  · exact absurd (List.mem_map_of_mem Prod.snd hmem) hnot
  · exact (List.pairwise_append.mp hpw).2.2 p hp _ hmem

theorem pyGet_natCast (l : List String) (j : Nat) (hj : j < l.length) :
    pyGet l (j : Int) = some (l.getD j "") := by
  simp only [pyGet]
  rw [if_neg (show ¬((j : Int) < 0) by omega)]
  rw [if_pos (show (0 : Int) ≤ (j : Int) by omega)]
  rw [Int.toNat_natCast, List.getD_eq_getD_get?, List.get?_eq_get hj]
  rfl

theorem pyGet_neg_one (l : List String) (hl : l ≠ []) :
    pyGet l (-1) = l.getLast? := by
  have hlen : 0 < l.length := List.length_pos.mpr hl
  simp only [pyGet]
  rw [if_pos (show (-1 : Int) < 0 by decide)]
  rw [if_pos (show (0 : Int) ≤ (l.length : Int) + (-1) by omega)]
  have ht : ((l.length : Int) + (-1)).toNat = l.length - 1 := by omega
  rw [ht, List.getLast?_eq_getElem?, List.get?_eq_getElem?]

theorem contextChunks_eq_map (chunks : List String) (f : Int → String) :
    ∀ labels : List Int, (∀ i ∈ labels, pyGet chunks i = some (f i)) →
      contextChunks chunks labels = some (labels.map f)
  | [], _ => rfl
  | i :: rest, h => by
    have hi := h i (List.mem_cons_self i rest)
    have hrest := contextChunks_eq_map chunks f rest
      (fun x hx => h x (List.mem_cons_of_mem i hx))
    simp only [contextChunks, hi, hrest, List.map_cons]

/-! ## Claims about the vector index, the build and the query -/

/-- C5: for stored vectors and a query of matching dimension, search
computes the exact squared Euclidean distance of the query to every stored
vector, keeps the results in ascending key order (distance, with ties
broken by lowest insertion index), returns each stored entry at most once
with `min k n` filled slots, and the returned candidates all precede every
stored candidate left out. -/
theorem C5_search_exact (stored : List (List ℚ)) (q : List ℚ) (d k : Nat)
    (hq : q.length = d) (hs : ∀ v ∈ stored, v.length = d) :
    (searchTop stored q k).Sorted keyLe ∧
    (searchTop stored q k).length = min k stored.length ∧
    (∀ p ∈ searchTop stored q k,
      p.2 < stored.length ∧ p.1 = sqDist q (stored.getD p.2 [])) ∧
    ((searchTop stored q k).map Prod.snd).Nodup ∧
    (∀ j, j < stored.length → j ∉ (searchTop stored q k).map Prod.snd →
      ∀ p ∈ searchTop stored q k, keyLe p (sqDist q (stored.getD j []), j)) :=
  ⟨searchTop_sorted stored q k, searchTop_length stored q k,
    fun p hp => searchTop_mem stored q k p hp, searchTop_snd_nodup stored q k,
    fun j hj hnot => searchTop_minimal stored q k j hj hnot⟩

/-- C5 witness: two stored one-dimensional vectors and a query of the same
dimension, `k = 1`. -/
theorem C5_search_exact_witness :
    ([(0 : ℚ)] : List ℚ).length = 1 ∧ (∀ v ∈ [[(0 : ℚ)], [1]], v.length = 1) ∧
    ((searchTop [[(0 : ℚ)], [1]] [0] 1).Sorted keyLe ∧
    (searchTop [[(0 : ℚ)], [1]] [0] 1).length = min 1 ([[(0 : ℚ)], [1]] : List (List ℚ)).length ∧
    (∀ p ∈ searchTop [[(0 : ℚ)], [1]] [0] 1,
      p.2 < ([[(0 : ℚ)], [1]] : List (List ℚ)).length ∧
        p.1 = sqDist [0] (([[(0 : ℚ)], [1]] : List (List ℚ)).getD p.2 [])) ∧
    ((searchTop [[(0 : ℚ)], [1]] [0] 1).map Prod.snd).Nodup ∧
    (∀ j, j < ([[(0 : ℚ)], [1]] : List (List ℚ)).length →
      j ∉ (searchTop [[(0 : ℚ)], [1]] [0] 1).map Prod.snd →
      ∀ p ∈ searchTop [[(0 : ℚ)], [1]] [0] 1,
        keyLe p (sqDist [0] (([[(0 : ℚ)], [1]] : List (List ℚ)).getD j []), j))) :=
  ⟨rfl, by
      intro v hv
      simp only [List.mem_cons, List.not_mem_nil, or_false] at hv
      rcases hv with rfl | rfl <;> rfl,
    C5_search_exact [[(0 : ℚ)], [1]] [0] 1 1 rfl (by
      intro v hv
      simp only [List.mem_cons, List.not_mem_nil, or_false] at hv
      rcases hv with rfl | rfl <;> rfl)⟩

/-- C3 at the failing input: with 2 stored vectors and `top_k = 3` the
faiss search returns 3 labelled entries `[0, 1, -1]` — not `min 3 2 = 2`
entries, contrary to the claim — and the context assembly maps the padding
label `-1` through Python negative indexing to the last chunk, producing 3
context lines with the last chunk repeated and raising no error. -/
theorem C3_failing_input_eval :
    (faissSearch [[(0 : ℚ)], [1]] [0] 3).map Prod.snd = [0, 1, -1] ∧
    (faissSearch [[(0 : ℚ)], [1]] [0] 3).length = 3 ∧
    (faissSearch [[(0 : ℚ)], [1]] [0] 3).length ≠ min 3 2 ∧
    contextChunks ["c0", "c1"] ((faissSearch [[(0 : ℚ)], [1]] [0] 3).map Prod.snd) =
      some ["c0", "c1", "c1"] := by
  have hs : faissSearch [[(0 : ℚ)], [1]] [0] 3 =
      [((0 : ℚ), (0 : Int)), ((1 : ℚ), (1 : Int)), (padDist, (-1 : Int))] := by
    norm_num [faissSearch, searchTop, searchPairs, sqDist, List.range_succ,
      List.insertionSort, List.orderedInsert, keyLe, List.replicate]
  rw [hs]
  refine ⟨rfl, rfl, by decide, by decide⟩

/-- C4: whenever the chunk list of a document is empty (empty or too-short
document), the session build fails with the index build error and no
session value is produced — the error value carries no partial index and
no chunk store, so nothing is retained for the caller. -/
theorem C4_empty_build_fails (embed : String → List ℚ) (cs ov : Nat)
    (sents : List (List String)) (h : chunkText cs ov sents = []) :
    buildSession embed cs ov sents = Except.error IndexBuildError.emptyEmbeddingMatrix := by
  simp [buildSession, createIndex, h]

/-- C4 witness: the empty document (no sentences) has an empty chunk list
and its build fails. -/
theorem C4_empty_build_fails_witness :
    chunkText 800 100 [] = [] ∧
    buildSession (fun _ => [(0 : ℚ)]) 800 100 [] =
      Except.error IndexBuildError.emptyEmbeddingMatrix :=
  ⟨rfl, C4_empty_build_fails (fun _ => [(0 : ℚ)]) 800 100 [] rfl⟩

/-- C8: a query leaves the session unchanged: the chunk store and the
stored vectors after the query equal those before it (no statement of
`query` writes them; the search is read-only). -/
theorem C8_query_readonly (embedQ : String → List ℚ) (generate : String → String)
    (s : Session) (question : String) (topK : Nat) :
    (queryRun embedQ generate s question topK).2.chunks = s.chunks ∧
    (queryRun embedQ generate s question topK).2.index = s.index := by
  simp only [queryRun]
  split <;> exact ⟨rfl, rfl⟩

/-- C10: for a session with `n ≥ 1` chunks and `top_k > n`, the search
returns `top_k` labels including the padding label `-1`, the context
assembly raises no indexing exception (Python negative indexing maps `-1`
to the last chunk), and the assembled context has `top_k` lines whose tail
beyond the stored entries repeats the last chunk. -/
theorem C10_padding_repeats_last (s : Session) (qvec : List ℚ) (k : Nat)
    (hne : s.chunks ≠ []) (hlen : s.index.length = s.chunks.length)
    (hk : s.chunks.length < k) :
    ((faissSearch s.index qvec k).map Prod.snd).length = k ∧
    (-1 : Int) ∈ (faissSearch s.index qvec k).map Prod.snd ∧
    ∃ lines c, s.chunks.getLast? = some c ∧
      contextChunks s.chunks ((faissSearch s.index qvec k).map Prod.snd) = some lines ∧
      lines.length = k ∧
      lines.drop s.chunks.length = List.replicate (k - s.chunks.length) c := by
  have hnk : s.index.length < k := by omega
  have hfs : (faissSearch s.index qvec k).map Prod.snd =
      (searchTop s.index qvec k).map (fun p => ((p.2 : Int))) ++
        List.replicate (k - s.index.length) (-1 : Int) := by
    simp [faissSearch, List.map_map, Function.comp_def]
  have hAlen : ((searchTop s.index qvec k).map (fun p => ((p.2 : Int)))).length =
      s.index.length := by
    rw [List.length_map, searchTop_length]
    omega
  obtain ⟨c, hc⟩ : ∃ c, s.chunks.getLast? = some c := by
    have := List.getLast?_isSome.mpr hne
    exact Option.isSome_iff_exists.mp this
  have hall : ∀ i ∈ (faissSearch s.index qvec k).map Prod.snd,
      pyGet s.chunks i =
        some (if i < 0 then c else s.chunks.getD i.toNat "") := by
    intro i hi
    rw [hfs] at hi
    rcases List.mem_append.mp hi with hi | hi
    · obtain ⟨p, hp, rfl⟩ := List.mem_map.mp hi
      have hp2 : p.2 < s.chunks.length := by
        have := (searchTop_mem s.index qvec k p hp).1
        omega
      rw [pyGet_natCast s.chunks p.2 hp2]
      rw [if_neg (show ¬((p.2 : Int) < 0) by omega), Int.toNat_natCast]
    · have hi1 : i = -1 := (List.eq_of_mem_replicate hi)
      rw [hi1, pyGet_neg_one s.chunks hne, hc]
      rfl
  have hctx := contextChunks_eq_map s.chunks
    (fun i => if i < 0 then c else s.chunks.getD i.toNat "")
    ((faissSearch s.index qvec k).map Prod.snd) hall
  refine ⟨?_, ?_, ?_⟩
  · rw [hfs, List.length_append, hAlen, List.length_replicate]
    omega
  · rw [hfs]
    refine List.mem_append_right _ (List.mem_replicate.mpr ⟨by omega, rfl⟩)
  · refine ⟨_, c, hc, hctx, ?_, ?_⟩
    · rw [List.length_map, hfs, List.length_append, hAlen, List.length_replicate]
      omega
    · rw [hfs, List.map_append]
      have hAlen' : (((searchTop s.index qvec k).map (fun p => ((p.2 : Int)))).map
          (fun i => if i < 0 then c else s.chunks.getD i.toNat "")).length =
          s.chunks.length := by
        rw [List.length_map, hAlen, hlen]
      rw [List.drop_left' hAlen', List.map_replicate]
      rw [if_pos (show (-1 : Int) < 0 by decide), hlen]

/-- C10 witness: a session of 2 chunks queried with `top_k = 3`. -/
theorem C10_padding_repeats_last_witness :
    (Session.mk ["c0", "c1"] [[0], [1]]).chunks ≠ [] ∧
    (Session.mk ["c0", "c1"] [[0], [1]]).index.length =
      (Session.mk ["c0", "c1"] [[0], [1]]).chunks.length ∧
    (Session.mk ["c0", "c1"] [[0], [1]]).chunks.length < 3 ∧
    (((faissSearch (Session.mk ["c0", "c1"] [[0], [1]]).index [0] 3).map Prod.snd).length = 3 ∧
    (-1 : Int) ∈ (faissSearch (Session.mk ["c0", "c1"] [[0], [1]]).index [0] 3).map Prod.snd ∧
    ∃ lines c, (Session.mk ["c0", "c1"] [[0], [1]]).chunks.getLast? = some c ∧
      contextChunks (Session.mk ["c0", "c1"] [[0], [1]]).chunks
        ((faissSearch (Session.mk ["c0", "c1"] [[0], [1]]).index [0] 3).map Prod.snd) =
          some lines ∧
      lines.length = 3 ∧
      lines.drop (Session.mk ["c0", "c1"] [[0], [1]]).chunks.length =
        List.replicate (3 - (Session.mk ["c0", "c1"] [[0], [1]]).chunks.length) c) :=
  ⟨by decide, rfl, by decide,
    C10_padding_repeats_last (Session.mk ["c0", "c1"] [[0], [1]]) [0] 3
      (by decide) rfl (by decide)⟩

end MarkdownVectorDB
